import Mathlib

/-
Verification of the GitHub yearly-activity README updater
(`update_readme.py`): event fetching with year-bounded pagination,
event summarization, summary rendering, and marker-delimited document
patching.  The Python functions are shallowly embedded as executable
Lean definitions over `List Char` documents and explicit page feeds;
fallible operations are modelled with `Option` results.
-/

namespace Ghs

/-! ## Events and pages (data model of `fetch_yearly_events`) -/

/-- One record of the public-events feed.  `created_at` is the year the
record's timestamp parses to, or `none` when the field is missing or the
timestamp is malformed (Python `KeyError`/`ValueError`).  `repoName` is
the record's `repo.name` field, or `none` when missing or malformed
(Python `KeyError`/`TypeError`). -/
structure Event where
  created_at : Option Nat
  repoName : Option String
deriving DecidableEq, Repr

/-- Result of requesting one page of the feed: `err` for any non-2xx
status or request-level failure (the code returns `[]` for these),
`ok data` for a decoded JSON array of records. -/
inductive PageResp where
  | err : PageResp
  | ok : List Event → PageResp
deriving DecidableEq, Repr

/-- The year-boundary check of `fetch_yearly_events` (line 73):
`any(strptime(e["created_at"], ...).year < this_year for e in data)`.
The generator re-parses every record in order and short-circuits on the
first out-of-year record; a missing or malformed `created_at`
encountered first raises (modelled as `none`), which the surrounding
`except Exception` turns into `return []`. -/
def anyOlder (thisYear : Nat) : List Event → Option Bool
  | [] => some false
  | e :: es =>
    match e.created_at with
    | none => none
    | some y => if y < thisYear then some true else anyOlder thisYear es

/-- The pagination loop of `fetch_yearly_events` (lines 35-87) over a
finite feed of pages; pages beyond the list behave as an empty JSON
array.  Returns the accumulated current-year events together with the
number of page requests issued.  Per page: a failed request aborts with
`[]`; empty data stops with the accumulated events; otherwise the
current-year records are retained in encounter order (malformed
timestamps skipped), then the year-boundary check either raises
(aborting with `[]`), stops (returning the accumulation), or lets the
loop advance to the next page. -/
def fetchGo (thisYear : Nat) : List PageResp → List Event → Nat → List Event × Nat
  | [], acc, n => (acc, n + 1)
  | PageResp.err :: _, _, n => ([], n + 1)
  | PageResp.ok [] :: _, acc, n => (acc, n + 1)
  | PageResp.ok (e :: es) :: rest, acc, n =>
    let retained := (e :: es).filter (fun ev => decide (ev.created_at = some thisYear))
    match anyOlder thisYear (e :: es) with
    | none => ([], n + 1)
    | some true => (acc ++ retained, n + 1)
    | some false => fetchGo thisYear rest (acc ++ retained) (n + 1)

/-- `fetch_yearly_events`: the event sequence returned for a feed. -/
def fetch_yearly_events (thisYear : Nat) (feed : List PageResp) : List Event :=
  (fetchGo thisYear feed [] 0).1

/-- Number of page requests `fetch_yearly_events` issues on a feed. -/
def fetchRequests (thisYear : Nat) (feed : List PageResp) : Nat :=
  (fetchGo thisYear feed [] 0).2

/-! ## Summarizing (`summarize_events`) -/

/-- The summary record `{total_events, unique_repos, repos}`.  The
Python `set` of repository names is modelled as its list of distinct
elements in first-insertion order (order is irrelevant: rendering
sorts it). -/
structure Summary where
  total_events : Nat
  unique_repos : Nat
  repos : List String
deriving DecidableEq, Repr

/-- `summarize_events` (lines 94-116): collect each event's `repo.name`
into a set, skipping records whose field is missing or malformed;
`total_events` is the length of the full input list, `unique_repos`
the size of the set. -/
def summarize_events (events : List Event) : Summary :=
  let repos := (events.filterMap Event.repoName).dedup
  { total_events := events.length
    unique_repos := repos.length
    repos := repos }

/-! ## Rendering (`generate_summary_text`) -/

/-- Python's `"\n".join`. -/
def joinLines : List String → String
  | [] => ""
  | [l] => l
  | l :: ls => l ++ "\n" ++ joinLines ls

/-- Python's `sorted` on the repository set: lexicographic ascending. -/
def sortRepos (l : List String) : List String := List.insertionSort (· ≤ ·) l

/-- `generate_summary_text` (lines 127-144): the fixed header lines
followed by one bullet per repository in sorted order, or a placeholder
bullet when the set is empty, joined by newlines. -/
def generate_summary_text (summary : Summary) : String :=
  let lines := ["**Total public events this year:** " ++ toString summary.total_events,
                "**Repositories contributed to:** " ++ toString summary.unique_repos,
                "## Repositories:"]
  let lines' :=
    if summary.repos.isEmpty then lines ++ ["- No repositories found"]
    else lines ++ (sortRepos summary.repos).map (fun repo => "- " ++ repo)
  joinLines lines'

/-! ## Document patching (`update_readme`)

The regex `START_MARKER.*?END_MARKER` with `re.DOTALL` is embedded
directly: a match begins at a position where the start marker is a
prefix and some end-marker occurrence follows the start marker; the
non-greedy `.*?` makes the match end at the first such end-marker
occurrence.  `re.sub` replaces every non-overlapping match, scanning
left to right. -/

/-- Whether the first list is a prefix of the second. -/
def isPrefixList : List Char → List Char → Bool
  | [], _ => true
  | _ :: _, [] => false
  | a :: as, b :: bs => a = b && isPrefixList as bs

/-- Whether `pat` occurs as a contiguous sublist. -/
def occursIn (pat : List Char) : List Char → Bool
  | [] => pat.isEmpty
  | c :: rest => isPrefixList pat (c :: rest) || occursIn pat rest

/-- Scan for the first occurrence of `pat` and return the suffix that
follows it, or `none` when `pat` does not occur. -/
def dropThrough (pat : List Char) : List Char → Option (List Char)
  | [] => if pat.isEmpty then some [] else none
  | c :: rest =>
    if isPrefixList pat (c :: rest) then some ((c :: rest).drop pat.length)
    else dropThrough pat rest

/-- `START_MARKER` (line 22). -/
def startMarker : List Char := "<!-- GITHUB_SUMMARY_START -->".data

/-- `END_MARKER` (line 23). -/
def endMarker : List Char := "<!-- GITHUB_SUMMARY_END -->".data

/-- Left-to-right scan of `re.sub`: at each position, if a match of
`START_MARKER.*?END_MARKER` begins there, emit `repl` and resume after
the match (the first end-marker occurrence past the start marker);
otherwise emit the character and advance.  The fuel argument (always
instantiated with the list length, which bounds the number of steps)
makes the recursion structural. -/
def subAllFuel (repl : List Char) : Nat → List Char → List Char
  | _, [] => []
  | 0, s => s
  | fuel + 1, c :: rest =>
    if isPrefixList startMarker (c :: rest) then
      match dropThrough endMarker ((c :: rest).drop startMarker.length) with
      | some t => repl ++ subAllFuel repl fuel t
      | none => c :: subAllFuel repl fuel rest
    else c :: subAllFuel repl fuel rest

/-- `pattern.sub(repl, s)` for the marker pattern. -/
def subAll (repl s : List Char) : List Char := subAllFuel repl s.length s

/-- `pattern.search(s)` for the marker pattern: some position starts
with the start marker and an end-marker occurrence follows it. -/
def hasMatch : List Char → Bool
  | [] => false
  | c :: rest =>
    (isPrefixList startMarker (c :: rest) &&
      (dropThrough endMarker ((c :: rest).drop startMarker.length)).isSome)
    || hasMatch rest

/-- The replacement block `f"{START_MARKER}\n{summary_text}\n{END_MARKER}"`
(line 184). -/
def mkBlock (text : List Char) : List Char :=
  startMarker ++ '\n' :: (text ++ '\n' :: endMarker)

/-- The content transformation of `update_readme` (lines 180-191): if
the marker pattern matches somewhere, substitute the replacement block
for every match; otherwise append two newlines and the block. -/
def patchContent (text content : List Char) : List Char :=
  if hasMatch content then subAll (mkBlock text) content
  else content ++ '\n' :: '\n' :: mkBlock text

/-- `update_readme` on an in-memory document: render the summary and
merge it into the content. -/
def update_readme (summary : Summary) (content : List Char) : List Char :=
  patchContent (generate_summary_text summary).data content

/-- Outcome of reading the target document in `update_readme`
(lines 156-178): the file may be missing, read cleanly as UTF-8, fail
UTF-8 decoding but decode under the latin-1 fallback, fail both
decodings, or fail with some other read error. -/
inductive ReadOutcome where
  | missing : ReadOutcome
  | okUtf8 : List Char → ReadOutcome
  | utf8FailLatin1 : List Char → ReadOutcome
  | utf8FailBothFail : ReadOutcome
  | readError : ReadOutcome
deriving DecidableEq, Repr

/-- The content `update_readme` proceeds with for each read outcome:
a missing file, a doubly-failed decode, and any other read error
degrade to empty content; a successful latin-1 fallback supplies the
latin-1 decoding of the bytes. -/
def readDocument : ReadOutcome → List Char
  | ReadOutcome.missing => []
  | ReadOutcome.okUtf8 c => c
  | ReadOutcome.utf8FailLatin1 c => c
  | ReadOutcome.utf8FailBothFail => []
  | ReadOutcome.readError => []

/-- `update_readme` end to end from a read outcome: read (degrading as
above), render, merge. -/
def update_readme_io (summary : Summary) (r : ReadOutcome) : List Char :=
  update_readme summary (readDocument r)

/-! ## Prefix and occurrence lemmas -/

theorem isPrefixList_append_self (p z : List Char) : isPrefixList p (p ++ z) = true := by
  induction p with
  | nil => rfl
  | cons a as ih => simp [isPrefixList, ih]

theorem isPrefixList_iff_take : ∀ (p s : List Char),
    isPrefixList p s = true ↔ s.take p.length = p := by
  intro p
  induction p with
  | nil => intro s; simp [isPrefixList]
  | cons a as ih =>
    intro s
    cases s with
    | nil => simp [isPrefixList]
    | cons b bs =>
      simp only [isPrefixList, List.length_cons, List.take_succ_cons,
        Bool.and_eq_true, decide_eq_true_eq, ih bs, List.cons_eq_cons]
      exact ⟨fun ⟨h1, h2⟩ => ⟨h1.symm, h2⟩, fun ⟨h1, h2⟩ => ⟨h1.symm, h2⟩⟩

theorem isPrefixList_length_le {p s : List Char} (h : isPrefixList p s = true) :
    p.length ≤ s.length := by
  rw [isPrefixList_iff_take] at h
  have h2 := congrArg List.length h
  simp [List.length_take] at h2
  omega

theorem prefix_head_mem {p : List Char} {c : Char} {s : List Char}
    (h : isPrefixList p (c :: s) = true) : p = [] ∨ c ∈ p := by
  cases p with
  | nil => exact Or.inl rfl
  | cons a as =>
    simp only [isPrefixList, Bool.and_eq_true, decide_eq_true_eq] at h
    exact Or.inr (by simp [h.1])

theorem prefix_append_mem : ∀ (a : List Char) {p : List Char} {c : Char} {b : List Char},
    isPrefixList p (a ++ c :: b) = true → isPrefixList p a = true ∨ c ∈ p := by
  intro a
  induction a with
  | nil =>
    intro p c b h
    rcases prefix_head_mem h with h1 | h1
    · exact Or.inl (by simp [h1, isPrefixList])
    · exact Or.inr h1
  | cons x a' ih =>
    intro p c b h
    cases p with
    | nil => exact Or.inl rfl
    | cons y p' =>
      simp only [List.cons_append, isPrefixList, Bool.and_eq_true, decide_eq_true_eq] at h
      rcases ih h.2 with h2 | h2
      · exact Or.inl (by simp [isPrefixList, h.1, h2])
      · exact Or.inr (List.mem_cons_of_mem _ h2)

theorem prefix_overlap {p u v : List Char} (h : isPrefixList p (u ++ (p ++ v)) = true) :
    isPrefixList p u = true ∨
      (u.length < p.length ∧ isPrefixList (p.drop u.length) p = true) := by
  rw [isPrefixList_iff_take] at h
  by_cases hle : p.length ≤ u.length
  · left
    rw [isPrefixList_iff_take]
    rw [List.take_append_eq_append_take, Nat.sub_eq_zero_of_le hle] at h
    simpa using h
  · right
    push_neg at hle
    refine ⟨hle, ?_⟩
    rw [isPrefixList_iff_take, List.length_drop]
    rw [List.take_append_eq_append_take, List.take_of_length_le hle.le,
      List.take_append_eq_append_take, Nat.sub_eq_zero_of_le (Nat.sub_le _ _)] at h
    simp only [List.take_zero, List.append_nil] at h
    conv_rhs => rw [← h]
    rw [List.drop_left]

theorem occursIn_nil_pat (s : List Char) : occursIn [] s = true := by
  cases s <;> simp [occursIn, isPrefixList]

theorem occursIn_cons_of (pat : List Char) (c : Char) {rest : List Char}
    (h : occursIn pat rest = true) : occursIn pat (c :: rest) = true := by
  simp [occursIn, h]

theorem occursIn_of_drop {pat : List Char} : ∀ (n : Nat) {s : List Char},
    occursIn pat (s.drop n) = true → occursIn pat s = true := by
  intro n
  induction n with
  | zero => intro s h; simpa using h
  | succ m ih =>
    intro s h
    cases s with
    | nil => simpa using h
    | cons c rest => exact occursIn_cons_of _ _ (ih (by simpa using h))

/-! ## dropThrough lemmas -/

theorem dropThrough_isSome (pat : List Char) : ∀ (s : List Char),
    (dropThrough pat s).isSome = occursIn pat s := by
  intro s
  induction s with
  | nil => by_cases hp : pat.isEmpty <;> simp [dropThrough, occursIn, hp]
  | cons c rest ih =>
    simp only [dropThrough, occursIn]
    split
    · rename_i h; simp [h]
    · rename_i h
      rw [Bool.not_eq_true] at h
      simp [h, ih]

theorem dropThrough_length {pat : List Char} : ∀ {s t : List Char},
    dropThrough pat s = some t → t.length + pat.length ≤ s.length := by
  intro s
  induction s with
  | nil =>
    intro t h
    by_cases hp : pat.isEmpty
    · simp only [dropThrough, hp, if_pos, Option.some_inj] at h
      rw [List.isEmpty_iff] at hp
      subst hp
      simp [← h]
    · simp [dropThrough, hp] at h
  | cons c rest ih =>
    intro t h
    simp only [dropThrough] at h
    split at h
    · rename_i hpre
      have hlen := isPrefixList_length_le hpre
      injection h with h'
      subst h'
      rw [List.length_drop]
      simp only [List.length_cons] at hlen ⊢
      omega
    · have := ih h
      simp only [List.length_cons]
      omega

/-! ## Concrete facts about the marker literals -/

theorem startMarker_ne_nil : startMarker ≠ [] := by decide

theorem endMarker_ne_nil : endMarker ≠ [] := by decide

theorem nl_not_mem_startMarker : '\n' ∉ startMarker := by decide

theorem nl_not_mem_endMarker : '\n' ∉ endMarker := by decide

theorem startMarker_noBorder : ∀ k < startMarker.length, 0 < k →
    isPrefixList (startMarker.drop k) startMarker = false := by decide

theorem endMarker_noBorder : ∀ k < endMarker.length, 0 < k →
    isPrefixList (endMarker.drop k) endMarker = false := by decide

/-! ## First-occurrence scanning through clean segments -/

theorem dropThrough_concat {q : List Char} (hq : q ≠ [])
    (hb : ∀ k < q.length, 0 < k → isPrefixList (q.drop k) q = false) :
    ∀ (mid z : List Char), occursIn q mid = false →
      dropThrough q (mid ++ (q ++ z)) = some z := by
  intro mid
  induction mid with
  | nil =>
    intro z _
    cases q with
    | nil => exact absurd rfl hq
    | cons a q' =>
      show dropThrough (a :: q') ((a :: q') ++ z) = some z
      have hpre := isPrefixList_append_self (a :: q') z
      simp only [List.cons_append] at hpre ⊢
      simp only [dropThrough, hpre, if_pos]
      rw [Option.some_inj, ← List.cons_append]
      exact List.drop_left _ _
  | cons x mid' ih =>
    intro z hocc
    simp only [occursIn, Bool.or_eq_false_iff] at hocc
    have hnp : isPrefixList q ((x :: mid') ++ (q ++ z)) = false := by
      by_contra hcon
      rw [Bool.not_eq_false] at hcon
      rcases prefix_overlap hcon with h2 | ⟨h2, h3⟩
      · rw [hocc.1] at h2; exact Bool.false_ne_true h2
      · rw [hb _ h2 (by simp)] at h3; exact Bool.false_ne_true h3
    show dropThrough q (x :: (mid' ++ (q ++ z))) = some z
    rw [show dropThrough q (x :: (mid' ++ (q ++ z))) = dropThrough q (mid' ++ (q ++ z)) by
      simp only [dropThrough, ← List.cons_append, hnp]
      simp]
    exact ih z hocc.2

theorem occursIn_snoc_nl {q : List Char} (hq : q ≠ []) (hnl : '\n' ∉ q) :
    ∀ {t : List Char}, occursIn q t = false → occursIn q (t ++ ['\n']) = false := by
  intro t
  induction t with
  | nil =>
    intro _
    simp only [List.nil_append]
    have h1 : isPrefixList q ['\n'] = false := by
      by_contra hcon
      rw [Bool.not_eq_false] at hcon
      rcases prefix_head_mem hcon with h | h
      · exact hq h
      · exact hnl h
    simp [occursIn, h1, List.isEmpty_iff, hq]
  | cons c t' ih =>
    intro h
    simp only [occursIn, Bool.or_eq_false_iff] at h
    have hh : isPrefixList q ((c :: t') ++ ['\n']) = false := by
      by_contra hcon
      rw [Bool.not_eq_false] at hcon
      rcases prefix_append_mem (c :: t') hcon with h2 | h2
      · rw [h.1] at h2; exact Bool.false_ne_true h2
      · exact hnl h2
    show occursIn q (c :: (t' ++ ['\n'])) = false
    simp only [occursIn, Bool.or_eq_false_iff]
    exact ⟨by simpa using hh, ih h.2⟩

theorem occursIn_pad {q t : List Char} (hq : q ≠ []) (hnl : '\n' ∉ q)
    (ht : occursIn q t = false) : occursIn q ('\n' :: (t ++ ['\n'])) = false := by
  have h1 := occursIn_snoc_nl hq hnl ht
  have h2 : isPrefixList q ('\n' :: (t ++ ['\n'])) = false := by
    by_contra hcon
    rw [Bool.not_eq_false] at hcon
    rcases prefix_head_mem hcon with h | h
    · exact hq h
    · exact hnl h
  simp [occursIn, h1, h2]

/-! ## The substitution scan: unfolding equations -/

theorem startMarker_length_pos : 0 < startMarker.length := by decide

theorem subAllFuel_nil (repl : List Char) (f : Nat) : subAllFuel repl f [] = [] := by
  cases f <;> rfl

theorem subAllFuel_irrel (repl : List Char) : ∀ (f g : Nat) (s : List Char),
    s.length ≤ f → s.length ≤ g → subAllFuel repl f s = subAllFuel repl g s := by
  intro f
  induction f with
  | zero =>
    intro g s hf _
    have hs : s = [] := List.eq_nil_of_length_eq_zero (Nat.le_zero.mp hf)
    subst hs
    simp [subAllFuel_nil]
  | succ f' ih =>
    intro g s hf hg
    cases s with
    | nil => simp [subAllFuel_nil]
    | cons c rest =>
      cases g with
      | zero => simp at hg
      | succ g' =>
        simp only [List.length_cons] at hf hg
        have hf' : rest.length ≤ f' := by omega
        have hg' : rest.length ≤ g' := by omega
        show subAllFuel repl (f' + 1) (c :: rest) = subAllFuel repl (g' + 1) (c :: rest)
        by_cases hpre : isPrefixList startMarker (c :: rest) = true
        · cases hdt : dropThrough endMarker ((c :: rest).drop startMarker.length) with
          | none =>
            simp only [subAllFuel, hpre, if_true, hdt]
            rw [ih g' rest hf' hg']
          | some t =>
            have ht := dropThrough_length hdt
            have hp := startMarker_length_pos
            simp only [List.length_drop, List.length_cons] at ht
            have ht1 : t.length ≤ f' := by omega
            have ht2 : t.length ≤ g' := by omega
            simp only [subAllFuel, hpre, if_true, hdt]
            rw [ih g' t ht1 ht2]
        · rw [Bool.not_eq_true] at hpre
          simp only [subAllFuel, hpre, Bool.false_eq_true, if_false]
          rw [ih g' rest hf' hg']

theorem subAll_nil (repl : List Char) : subAll repl [] = [] := rfl

theorem subAll_cons (repl : List Char) (c : Char) (rest : List Char) :
    subAll repl (c :: rest) =
      if isPrefixList startMarker (c :: rest) then
        match dropThrough endMarker ((c :: rest).drop startMarker.length) with
        | some t => repl ++ subAll repl t
        | none => c :: subAll repl rest
      else c :: subAll repl rest := by
  show subAllFuel repl (rest.length + 1) (c :: rest) = _
  by_cases hpre : isPrefixList startMarker (c :: rest) = true
  · cases hdt : dropThrough endMarker ((c :: rest).drop startMarker.length) with
    | none =>
      simp only [subAllFuel, hpre, if_true, hdt]
      rfl
    | some t =>
      have ht := dropThrough_length hdt
      have hp := startMarker_length_pos
      simp only [List.length_drop, List.length_cons] at ht
      have ht1 : t.length ≤ rest.length := by omega
      simp only [subAllFuel, hpre, if_true, hdt]
      rw [subAllFuel_irrel repl rest.length t.length t ht1 (le_refl _)]
      rfl
  · rw [Bool.not_eq_true] at hpre
    simp only [subAllFuel, hpre, Bool.false_eq_true, if_false]
    rfl

/-! ## Scanning a replacement block -/

theorem mkBlock_append (t z : List Char) :
    mkBlock t ++ z = startMarker ++ (('\n' :: (t ++ ['\n'])) ++ (endMarker ++ z)) := by
  simp [mkBlock, List.append_assoc]

theorem subAll_start_some {repl w t : List Char} (h : dropThrough endMarker w = some t) :
    subAll repl (startMarker ++ w) = repl ++ subAll repl t := by
  cases hs : startMarker ++ w with
  | nil =>
    rw [List.append_eq_nil] at hs
    exact absurd hs.1 startMarker_ne_nil
  | cons c rest =>
    rw [← hs, hs, subAll_cons]
    have h1 : isPrefixList startMarker (c :: rest) = true := by
      rw [← hs]; exact isPrefixList_append_self _ _
    have h2 : dropThrough endMarker ((c :: rest).drop startMarker.length) = some t := by
      rw [← hs, List.drop_left]; exact h
    rw [if_pos h1, h2]

theorem subAll_block (repl : List Char) {T : List Char} (z : List Char)
    (hT : occursIn endMarker T = false) :
    subAll repl (mkBlock T ++ z) = repl ++ subAll repl z := by
  rw [mkBlock_append]
  exact subAll_start_some
    (dropThrough_concat endMarker_ne_nil endMarker_noBorder _ _
      (occursIn_pad endMarker_ne_nil nl_not_mem_endMarker hT))

theorem subAll_of_not_hasMatch (repl : List Char) : ∀ {s : List Char},
    hasMatch s = false → subAll repl s = s := by
  intro s
  induction s with
  | nil => intro _; rfl
  | cons c rest ih =>
    intro h
    simp only [hasMatch, Bool.or_eq_false_iff, Bool.and_eq_false_iff] at h
    rw [subAll_cons]
    by_cases hpre : isPrefixList startMarker (c :: rest) = true
    · have hnone : dropThrough endMarker ((c :: rest).drop startMarker.length) = none := by
        rcases h.1 with hA | hB
        · rw [hpre] at hA; exact absurd hA (by simp)
        · exact Option.not_isSome_iff_eq_none.mp (by simp [hB])
      rw [if_pos hpre, hnone, ih h.2]
    · rw [Bool.not_eq_true] at hpre
      simp only [hpre, Bool.false_eq_true, if_false]
      rw [ih h.2]

/-! ## Idempotence of the substitution scan -/

theorem subAll_take_mkBlock (T : List Char) : ∀ (s : List Char) {n : Nat},
    n ≤ startMarker.length → (subAll (mkBlock T) s).take n = s.take n := by
  intro s
  induction s with
  | nil => intro n _; simp [subAll_nil]
  | cons c rest ih =>
    intro n hn
    rw [subAll_cons]
    by_cases hpre : isPrefixList startMarker (c :: rest) = true
    · cases hdt : dropThrough endMarker ((c :: rest).drop startMarker.length) with
      | some t =>
        rw [if_pos hpre]
        show (mkBlock T ++ subAll (mkBlock T) t).take n = (c :: rest).take n
        have hblen : startMarker.length ≤ (mkBlock T).length := by
          simp [mkBlock]
        rw [List.take_append_eq_append_take,
          Nat.sub_eq_zero_of_le (le_trans hn hblen), List.take_zero, List.append_nil]
        rw [mkBlock, List.take_append_eq_append_take, Nat.sub_eq_zero_of_le hn,
          List.take_zero, List.append_nil]
        have h2 : (c :: rest).take startMarker.length = startMarker :=
          (isPrefixList_iff_take _ _).mp hpre
        conv_rhs => rw [show n = min n startMarker.length from (Nat.min_eq_left hn).symm,
          ← List.take_take, h2]
      | none =>
        rw [if_pos hpre]
        show (c :: subAll (mkBlock T) rest).take n = (c :: rest).take n
        cases n with
        | zero => simp
        | succ m =>
          simp only [List.take_succ_cons]
          rw [ih (le_trans (Nat.le_succ m) hn)]
    · rw [Bool.not_eq_true] at hpre
      simp only [hpre, Bool.false_eq_true, if_false]
      cases n with
      | zero => simp
      | succ m =>
        simp only [List.take_succ_cons]
        rw [ih (le_trans (Nat.le_succ m) hn)]

theorem occursIn_drop_mono {pat l : List Char} {m n : Nat} (hmn : m ≤ n)
    (h : occursIn pat (l.drop n) = true) : occursIn pat (l.drop m) = true := by
  have hd : l.drop n = (l.drop m).drop (n - m) := by
    rw [List.drop_drop]
    congr 1
    omega
  rw [hd] at h
  exact occursIn_of_drop _ h

theorem hasMatch_occursIn : ∀ {s : List Char}, hasMatch s = true →
    occursIn endMarker (s.drop (startMarker.length - 1)) = true := by
  intro s
  induction s with
  | nil => intro h; simp [hasMatch] at h
  | cons c rest ih =>
    intro h
    simp only [hasMatch, Bool.or_eq_true, Bool.and_eq_true] at h
    rcases h with ⟨_, h2⟩ | h2
    · rw [dropThrough_isSome] at h2
      exact occursIn_drop_mono (Nat.sub_le _ _) h2
    · have h3 := ih h2
      have h4 : occursIn endMarker ((c :: rest).drop startMarker.length) = true := by
        have hp := startMarker_length_pos
        rw [show startMarker.length = (startMarker.length - 1) + 1 by omega,
          List.drop_succ_cons]
        exact h3
      exact occursIn_drop_mono (Nat.sub_le _ _) h4

theorem subAll_fix {T : List Char} (hT : occursIn endMarker T = false) :
    ∀ (fuel : Nat) (s : List Char), s.length ≤ fuel →
      subAll (mkBlock T) (subAll (mkBlock T) s) = subAll (mkBlock T) s := by
  intro fuel
  induction fuel with
  | zero =>
    intro s h
    have hs : s = [] := List.eq_nil_of_length_eq_zero (Nat.le_zero.mp h)
    subst hs
    rfl
  | succ f ih =>
    intro s hs
    cases s with
    | nil => rfl
    | cons c rest =>
      simp only [List.length_cons] at hs
      have hrestf : rest.length ≤ f := by omega
      rw [subAll_cons]
      by_cases hpre : isPrefixList startMarker (c :: rest) = true
      · cases hdt : dropThrough endMarker ((c :: rest).drop startMarker.length) with
        | some t =>
          rw [if_pos hpre]
          show subAll (mkBlock T) (mkBlock T ++ subAll (mkBlock T) t)
              = mkBlock T ++ subAll (mkBlock T) t
          rw [subAll_block _ _ hT]
          have ht := dropThrough_length hdt
          have hp := startMarker_length_pos
          simp only [List.length_drop, List.length_cons] at ht
          have ht1 : t.length ≤ f := by omega
          rw [ih t ht1]
        | none =>
          rw [if_pos hpre]
          show subAll (mkBlock T) (c :: subAll (mkBlock T) rest)
              = c :: subAll (mkBlock T) rest
          have hocc : occursIn endMarker ((c :: rest).drop startMarker.length) = false := by
            have hi := dropThrough_isSome endMarker ((c :: rest).drop startMarker.length)
            rw [hdt] at hi
            simpa using hi.symm
          have hnm : hasMatch rest = false := by
            by_contra hcon
            rw [Bool.not_eq_false] at hcon
            have h5 := hasMatch_occursIn hcon
            have heq : (c :: rest).drop startMarker.length
                = rest.drop (startMarker.length - 1) := by
              have hp := startMarker_length_pos
              rw [show startMarker.length = (startMarker.length - 1) + 1 by omega,
                List.drop_succ_cons]
              simp
            rw [heq, h5] at hocc
            simp at hocc
          have hrest : subAll (mkBlock T) rest = rest := subAll_of_not_hasMatch _ hnm
          rw [hrest, subAll_cons, if_pos hpre, hdt, hrest]
      · rw [Bool.not_eq_true] at hpre
        simp only [hpre, Bool.false_eq_true, if_false]
        rw [subAll_cons]
        have hpre2 : isPrefixList startMarker (c :: subAll (mkBlock T) rest) = false := by
          by_contra hcon
          rw [Bool.not_eq_false, isPrefixList_iff_take] at hcon
          have hp := startMarker_length_pos
          have h28 : (subAll (mkBlock T) rest).take (startMarker.length - 1)
              = rest.take (startMarker.length - 1) :=
            subAll_take_mkBlock T rest (Nat.sub_le _ _)
          rw [show startMarker.length = (startMarker.length - 1) + 1 by omega,
            List.take_succ_cons, h28, ← List.take_succ_cons,
            show (startMarker.length - 1) + 1 = startMarker.length by omega] at hcon
          rw [← isPrefixList_iff_take, hpre] at hcon
          exact Bool.false_ne_true hcon
        simp only [hpre2, Bool.false_eq_true, if_false]
        rw [ih rest hrestf]

/-! ## hasMatch lemmas -/

theorem hasMatch_append_right {v : List Char} (h : hasMatch v = true) :
    ∀ (u : List Char), hasMatch (u ++ v) = true := by
  intro u
  induction u with
  | nil => simpa using h
  | cons x u' ih =>
    show hasMatch (x :: (u' ++ v)) = true
    simp only [hasMatch, Bool.or_eq_true]
    exact Or.inr ih

theorem hasMatch_block {T : List Char} (z : List Char) (hT : occursIn endMarker T = false) :
    hasMatch (mkBlock T ++ z) = true := by
  cases hs : mkBlock T ++ z with
  | nil =>
    rw [mkBlock_append, List.append_eq_nil] at hs
    exact absurd hs.1 startMarker_ne_nil
  | cons c rest =>
    have h1 : isPrefixList startMarker (c :: rest) = true := by
      rw [← hs, mkBlock_append]
      exact isPrefixList_append_self _ _
    have h2 : dropThrough endMarker ((c :: rest).drop startMarker.length) = some z := by
      rw [← hs, mkBlock_append, List.drop_left]
      exact dropThrough_concat endMarker_ne_nil endMarker_noBorder _ _
        (occursIn_pad endMarker_ne_nil nl_not_mem_endMarker hT)
    simp [hasMatch, h1, h2]

theorem hasMatch_subAll {T : List Char} (hT : occursIn endMarker T = false) :
    ∀ {s : List Char}, hasMatch s = true → hasMatch (subAll (mkBlock T) s) = true := by
  intro s
  induction s with
  | nil => intro h; simp [hasMatch] at h
  | cons c rest ih =>
    intro h
    rw [subAll_cons]
    by_cases hpre : isPrefixList startMarker (c :: rest) = true
    · cases hdt : dropThrough endMarker ((c :: rest).drop startMarker.length) with
      | some t =>
        rw [if_pos hpre]
        exact hasMatch_block _ hT
      | none =>
        have h2 : hasMatch rest = true := by
          simp only [hasMatch, Bool.or_eq_true, Bool.and_eq_true] at h
          rcases h with ⟨_, hB⟩ | h2
          · rw [hdt] at hB; simp at hB
          · exact h2
        rw [if_pos hpre]
        show hasMatch (c :: subAll (mkBlock T) rest) = true
        simp only [hasMatch, Bool.or_eq_true]
        exact Or.inr (ih h2)
    · rw [Bool.not_eq_true] at hpre
      simp only [hpre, Bool.false_eq_true, if_false]
      have h2 : hasMatch rest = true := by
        simp only [hasMatch, Bool.or_eq_true, Bool.and_eq_true] at h
        rcases h with ⟨hA, _⟩ | h2
        · rw [hpre] at hA; simp at hA
        · exact h2
      show hasMatch (c :: subAll (mkBlock T) rest) = true
      simp only [hasMatch, Bool.or_eq_true]
      exact Or.inr (ih h2)

/-! ## Scanning content that never starts a marker -/

theorem subAll_append_block {T : List Char} (hT : occursIn endMarker T = false) :
    ∀ {content : List Char}, occursIn startMarker content = false →
      subAll (mkBlock T) (content ++ '\n' :: '\n' :: mkBlock T) =
        content ++ '\n' :: '\n' :: mkBlock T := by
  intro content
  induction content with
  | nil =>
    intro _
    simp only [List.nil_append]
    have h1 : isPrefixList startMarker ('\n' :: ('\n' :: mkBlock T)) = false := by
      by_contra hcon
      rw [Bool.not_eq_false] at hcon
      rcases prefix_head_mem hcon with h | h
      · exact startMarker_ne_nil h
      · exact nl_not_mem_startMarker h
    have h2 : isPrefixList startMarker ('\n' :: mkBlock T) = false := by
      by_contra hcon
      rw [Bool.not_eq_false] at hcon
      rcases prefix_head_mem hcon with h | h
      · exact startMarker_ne_nil h
      · exact nl_not_mem_startMarker h
    rw [subAll_cons]
    simp only [h1, Bool.false_eq_true, if_false]
    rw [subAll_cons]
    simp only [h2, Bool.false_eq_true, if_false]
    have h3 : subAll (mkBlock T) (mkBlock T) = mkBlock T := by
      have h4 := subAll_block (mkBlock T) ([] : List Char) hT
      rw [subAll_nil, List.append_nil] at h4
      exact h4
    rw [h3]
  | cons x c' ih =>
    intro hocc
    simp only [occursIn, Bool.or_eq_false_iff] at hocc
    have h1 : isPrefixList startMarker (x :: (c' ++ '\n' :: '\n' :: mkBlock T)) = false := by
      by_contra hcon
      rw [Bool.not_eq_false] at hcon
      rw [show x :: (c' ++ '\n' :: '\n' :: mkBlock T)
          = (x :: c') ++ '\n' :: ('\n' :: mkBlock T) by simp] at hcon
      rcases prefix_append_mem (x :: c') hcon with h | h
      · rw [hocc.1] at h; simp at h
      · exact nl_not_mem_startMarker h
    show subAll (mkBlock T) (x :: (c' ++ '\n' :: '\n' :: mkBlock T)) = _
    rw [subAll_cons]
    simp only [h1, Bool.false_eq_true, if_false]
    rw [ih hocc.2]
    simp

theorem subAll_skip_clean (repl : List Char) : ∀ {pre : List Char} (w : List Char),
    occursIn startMarker pre = false →
      subAll repl (pre ++ (startMarker ++ w)) = pre ++ subAll repl (startMarker ++ w) := by
  intro pre
  induction pre with
  | nil => intro w _; simp
  | cons x pre' ih =>
    intro w hocc
    simp only [occursIn, Bool.or_eq_false_iff] at hocc
    have h1 : isPrefixList startMarker ((x :: pre') ++ (startMarker ++ w)) = false := by
      by_contra hcon
      rw [Bool.not_eq_false] at hcon
      rcases prefix_overlap hcon with h | ⟨h2, h3⟩
      · rw [hocc.1] at h; simp at h
      · rw [startMarker_noBorder _ h2 (by simp)] at h3; simp at h3
    show subAll repl (x :: (pre' ++ (startMarker ++ w))) = _
    rw [subAll_cons]
    have h1' : isPrefixList startMarker (x :: (pre' ++ (startMarker ++ w))) = false := by
      simpa using h1
    simp only [h1', Bool.false_eq_true, if_false]
    rw [ih w hocc.2]
    rfl

theorem subAll_span (repl : List Char) {mid : List Char} (post : List Char)
    (hmid : occursIn endMarker mid = false) :
    subAll repl (startMarker ++ (mid ++ (endMarker ++ post))) = repl ++ subAll repl post :=
  subAll_start_some (dropThrough_concat endMarker_ne_nil endMarker_noBorder _ _ hmid)

theorem hasMatch_cons_of {rest : List Char} (c : Char) (h : hasMatch rest = true) :
    hasMatch (c :: rest) = true := by
  show (_ || hasMatch rest) = true
  rw [h, Bool.or_true]

theorem hasMatch_pad_block {T : List Char} (hT : occursIn endMarker T = false) :
    hasMatch ('\n' :: '\n' :: mkBlock T) = true := by
  have h := hasMatch_block ([] : List Char) hT
  rw [List.append_nil] at h
  exact hasMatch_cons_of _ (hasMatch_cons_of _ h)

theorem patchContent_idem {T content : List Char}
    (hT : occursIn endMarker T = false)
    (hc : hasMatch content = true ∨ occursIn startMarker content = false) :
    patchContent T (patchContent T content) = patchContent T content := by
  by_cases hm : hasMatch content = true
  · have hinner : patchContent T content = subAll (mkBlock T) content := by
      unfold patchContent
      rw [if_pos hm]
    rw [hinner]
    unfold patchContent
    rw [if_pos (hasMatch_subAll hT hm)]
    exact subAll_fix hT content.length content (le_refl _)
  · rw [Bool.not_eq_true] at hm
    have hocc : occursIn startMarker content = false := by
      rcases hc with h | h
      · rw [h] at hm; simp at hm
      · exact h
    have hinner : patchContent T content = content ++ '\n' :: '\n' :: mkBlock T := by
      unfold patchContent
      rw [if_neg (by simp [hm])]
    rw [hinner]
    unfold patchContent
    rw [if_pos (hasMatch_append_right (hasMatch_pad_block hT) content)]
    exact subAll_append_block hT hocc

/-! ## Fetch-loop lemmas -/

theorem anyOlder_current {y : Nat} : ∀ {d : List Event},
    (∀ e ∈ d, e.created_at = some y) → anyOlder y d = some false := by
  intro d
  induction d with
  | nil => intro _; rfl
  | cons e es ih =>
    intro h
    have he := h e (by simp)
    simp only [anyOlder, he]
    rw [if_neg (lt_irrefl y)]
    exact ih (fun e1 he1 => h e1 (by simp [he1]))

theorem anyOlder_old_head {y yr : Nat} {e : Event} (es : List Event)
    (h1 : e.created_at = some yr) (h2 : yr < y) : anyOlder y (e :: es) = some true := by
  simp [anyOlder, h1, h2]

theorem filter_current_all {y : Nat} {d : List Event}
    (h : ∀ e ∈ d, e.created_at = some y) :
    d.filter (fun ev => decide (ev.created_at = some y)) = d := by
  apply List.filter_eq_self.mpr
  intro e he
  simp [h e he]

theorem filter_old_nil {y : Nat} {d : List Event}
    (h : ∀ e ∈ d, ∃ yr, e.created_at = some yr ∧ yr < y) :
    d.filter (fun ev => decide (ev.created_at = some y)) = [] := by
  apply List.filter_eq_nil_iff.mpr
  intro e he
  obtain ⟨yr, h1, h2⟩ := h e he
  simp [h1]
  omega

theorem fetchGo_year_boundary {y : Nat} {old : List Event}
    (hold : old ≠ []) (holdy : ∀ e ∈ old, ∃ yr, e.created_at = some yr ∧ yr < y) :
    ∀ (front : List (List Event)) (acc : List Event) (n : Nat),
      (∀ d ∈ front, d ≠ [] ∧ ∀ e ∈ d, e.created_at = some y) →
      fetchGo y (front.map PageResp.ok ++ [PageResp.ok old]) acc n
        = (acc ++ front.flatten, n + front.length + 1) := by
  intro front
  induction front with
  | nil =>
    intro acc n _
    cases old with
    | nil => exact absurd rfl hold
    | cons e es =>
      obtain ⟨yr, h1, h2⟩ := holdy e (by simp)
      show fetchGo y [PageResp.ok (e :: es)] acc n = _
      simp only [fetchGo]
      rw [anyOlder_old_head es h1 h2, filter_old_nil holdy]
      simp
  | cons d front1 ih =>
    intro acc n hfront
    obtain ⟨hdne, hdy⟩ := hfront d (by simp)
    cases d with
    | nil => exact absurd rfl hdne
    | cons e es =>
      show fetchGo y (PageResp.ok (e :: es) :: (front1.map PageResp.ok ++ [PageResp.ok old]))
          acc n = _
      simp only [fetchGo]
      rw [anyOlder_current hdy, filter_current_all hdy]
      rw [ih (acc ++ (e :: es)) (n + 1) (fun d1 hd1 => hfront d1 (by simp [hd1]))]
      simp only [List.flatten_cons, List.append_assoc, List.length_cons, Prod.mk.injEq]
      exact ⟨trivial, by omega⟩

theorem fetchGo_err {y : Nat} (rest : List PageResp) :
    ∀ (front : List (List Event)) (acc : List Event) (n : Nat),
      (∀ d ∈ front, d ≠ [] ∧ anyOlder y d = some false) →
      (fetchGo y (front.map PageResp.ok ++ PageResp.err :: rest) acc n).1 = [] := by
  intro front
  induction front with
  | nil => intro acc n _; rfl
  | cons d front1 ih =>
    intro acc n h
    obtain ⟨hdne, hda⟩ := h d (by simp)
    cases d with
    | nil => exact absurd rfl hdne
    | cons e es =>
      show (fetchGo y (PageResp.ok (e :: es)
          :: (front1.map PageResp.ok ++ PageResp.err :: rest)) acc n).1 = []
      simp only [fetchGo]
      rw [hda]
      exact ih _ _ (fun d1 hd1 => h d1 (by simp [hd1]))

/-! ## Rendering lemmas -/

theorem joinLines_cons_cons (a b : String) (rest : List String) :
    joinLines (a :: b :: rest) = a ++ "\n" ++ joinLines (b :: rest) := rfl

theorem joinLines_singleton (a : String) : joinLines [a] = a := rfl

theorem sortRepos_ne_nil {l : List String} (h : l ≠ []) : sortRepos l ≠ [] := by
  intro hnil
  have hp := List.perm_insertionSort (α := String) (· ≤ ·) l
  rw [show List.insertionSort (· ≤ ·) l = sortRepos l from rfl, hnil] at hp
  exact h (hp.symm.eq_nil)

/-! ## Concrete sample data for witnesses and counterexamples -/

/-- The summary of an empty event list: no events, no repositories. -/
def sampleSummary : Summary := { total_events := 0, unique_repos := 0, repos := [] }

/-- A feed page holding one well-formed current-year (2024) event. -/
def pageCurrent : List Event := [{ created_at := some 2024, repoName := some "a/b" }]

/-- A feed page holding one well-formed prior-year (2023) event. -/
def pageOld : List Event := [{ created_at := some 2023, repoName := some "c/d" }]

/-- A document holding two complete marker spans separated by a byte. -/
def twoSpanDoc : List Char :=
  startMarker ++ 'x' :: (endMarker ++ 'm' :: (startMarker ++ 'y' :: endMarker))

/-! ## Claim theorems -/

/-- C1 counterexample: for the single-event list whose event lacks a
repository name, `summarize_events` reports `total_events = 1`, not the
length `0` of the input after filtering out events with a missing or
malformed repo-name field — the code counts `len(events)` before any
repo-name filtering. -/
theorem summarize_total_events_cex :
    (summarize_events [{ created_at := some 2024, repoName := none }]).total_events
      ≠ (([{ created_at := some 2024, repoName := none }] : List Event).filter
          (fun e => e.repoName.isSome)).length := by decide

/-- C1 (amended): for every event sequence, `total_events` equals the
full input length (events with a missing or malformed repo-name field
are still counted), and `unique_repos` equals the cardinality of the
set of valid repository names extracted from the input. -/
theorem summarize_counts (events : List Event) :
    (summarize_events events).total_events = events.length
      ∧ (summarize_events events).unique_repos
          = (events.filterMap Event.repoName).toFinset.card := by
  constructor
  · rfl
  · show ((events.filterMap Event.repoName).dedup).length = _
    rw [List.card_toFinset]

/-- C2 (code bug): a page holding a valid current-year event followed
by a record with a missing `created_at` makes the whole fetch return
`[]` — the unguarded re-parse in the year-boundary check (line 73)
raises on the malformed record and the catch-all returns `[]`,
discarding the accumulated events instead of skipping the record. -/
theorem fetch_malformed_record_aborts :
    fetch_yearly_events 2024
      [PageResp.ok [{ created_at := some 2024, repoName := some "a/b" },
                    { created_at := none, repoName := some "c/d" }]] = [] := rfl

set_option maxRecDepth 10000 in
/-- C3 counterexample: on a document holding two marker spans, the
patcher rewrites both spans (`re.sub` replaces every non-overlapping
match), so the bytes of the second span are not preserved as the claim
("replaces only the first occurrence") requires. -/
theorem patch_two_spans_cex :
    update_readme sampleSummary twoSpanDoc
        = mkBlock (generate_summary_text sampleSummary).data
          ++ 'm' :: mkBlock (generate_summary_text sampleSummary).data
      ∧ update_readme sampleSummary twoSpanDoc
          ≠ mkBlock (generate_summary_text sampleSummary).data
            ++ 'm' :: (startMarker ++ 'y' :: endMarker) := by
  constructor
  · decide
  · decide

/-- C3 (amended): the patcher replaces every non-overlapping marker
span; bytes strictly outside the replaced spans are byte-identical in
the output.  In particular, for a document holding exactly one span
(prefix without a start marker, end-marker-free interior, remainder
without a further span), the output is the prefix, then the rendered
block, then the remainder, both ends unchanged. -/
theorem patch_single_span_frame (s : Summary) (pre mid post : List Char)
    (h1 : occursIn startMarker pre = false)
    (h2 : occursIn endMarker mid = false)
    (h3 : hasMatch post = false) :
    update_readme s (pre ++ (startMarker ++ (mid ++ (endMarker ++ post))))
      = pre ++ (mkBlock (generate_summary_text s).data ++ post) := by
  have hm : hasMatch (pre ++ (startMarker ++ (mid ++ (endMarker ++ post)))) = true := by
    refine hasMatch_append_right ?_ pre
    cases hs : startMarker ++ (mid ++ (endMarker ++ post)) with
    | nil =>
      rw [List.append_eq_nil] at hs
      exact absurd hs.1 startMarker_ne_nil
    | cons c rest =>
      have hp : isPrefixList startMarker (c :: rest) = true := by
        rw [← hs]; exact isPrefixList_append_self _ _
      have hd : dropThrough endMarker ((c :: rest).drop startMarker.length) = some post := by
        rw [← hs, List.drop_left]
        exact dropThrough_concat endMarker_ne_nil endMarker_noBorder _ _ h2
      simp [hasMatch, hp, hd]
  unfold update_readme patchContent
  rw [if_pos hm, subAll_skip_clean _ _ h1, subAll_span _ _ h2, subAll_of_not_hasMatch _ h3]

/-- Witness for C3 (amended) at a concrete one-span document. -/
theorem patch_single_span_frame_witness :
    occursIn startMarker ['a'] = false ∧ occursIn endMarker ['x'] = false
      ∧ hasMatch ['b'] = false
      ∧ update_readme sampleSummary
          (['a'] ++ (startMarker ++ (['x'] ++ (endMarker ++ ['b']))))
          = ['a'] ++ (mkBlock (generate_summary_text sampleSummary).data ++ ['b']) :=
  ⟨by decide, by decide, by decide,
    patch_single_span_frame sampleSummary ['a'] ['x'] ['b'] (by decide) (by decide) (by decide)⟩

set_option maxRecDepth 10000 in
/-- C4 counterexample: starting from a document that is exactly one
stray start marker (no end marker), the first application appends a
fresh block, after which the stray start marker and the appended
block's end marker form a span; the second application collapses the
whole document into a single block, so applying twice differs from
applying once. -/
theorem update_readme_idem_cex :
    update_readme sampleSummary (update_readme sampleSummary startMarker)
      ≠ update_readme sampleSummary startMarker := by decide

/-- C4 (amended): applying the patcher twice with the same summary
equals applying it once, provided the rendered summary text contains
no end-marker occurrence and the starting document either contains a
complete marker span or contains no start marker at all. -/
theorem update_readme_idem (s : Summary) (content : List Char)
    (hT : occursIn endMarker (generate_summary_text s).data = false)
    (hc : hasMatch content = true ∨ occursIn startMarker content = false) :
    update_readme s (update_readme s content) = update_readme s content :=
  patchContent_idem hT hc

/-- Witness for C4 (amended) at the empty document. -/
theorem update_readme_idem_witness :
    occursIn endMarker (generate_summary_text sampleSummary).data = false
      ∧ update_readme sampleSummary (update_readme sampleSummary [])
          = update_readme sampleSummary [] :=
  ⟨by decide, update_readme_idem sampleSummary [] (by decide) (Or.inr (by decide))⟩

/-- C5: for a feed whose first N pages hold only well-formed
current-year events and whose page N+1 is nonempty and holds only
well-formed prior-year events, the fetcher returns exactly the
current-year events of pages 1..N+1 in encounter order (their
concatenation) and issues exactly N+1 page requests, stopping after
the out-of-year page. -/
theorem fetch_year_boundary (y : Nat) (front : List (List Event)) (old : List Event)
    (hfront : ∀ d ∈ front, d ≠ [] ∧ ∀ e ∈ d, e.created_at = some y)
    (hold : old ≠ []) (holdy : ∀ e ∈ old, ∃ yr, e.created_at = some yr ∧ yr < y) :
    fetch_yearly_events y (front.map PageResp.ok ++ [PageResp.ok old]) = front.flatten
      ∧ fetchRequests y (front.map PageResp.ok ++ [PageResp.ok old])
          = front.length + 1 := by
  have h := fetchGo_year_boundary hold holdy front [] 0 hfront
  unfold fetch_yearly_events fetchRequests
  rw [h]
  simp

/-- Witness for C5: one current-year page followed by one prior-year
page. -/
theorem fetch_year_boundary_witness :
    (∀ d ∈ [pageCurrent], d ≠ [] ∧ ∀ e ∈ d, e.created_at = some 2024)
      ∧ fetch_yearly_events 2024
          ([pageCurrent].map PageResp.ok ++ [PageResp.ok pageOld]) = [pageCurrent].flatten
      ∧ fetchRequests 2024
          ([pageCurrent].map PageResp.ok ++ [PageResp.ok pageOld]) = [pageCurrent].length + 1 := by
  have h := fetch_year_boundary 2024 [pageCurrent] pageOld (by decide) (by decide)
    (by
      intro e he
      simp only [pageOld, List.mem_singleton] at he
      subst he
      exact ⟨2023, rfl, by omega⟩)
  exact ⟨by decide, h.1, h.2⟩

set_option maxRecDepth 10000 in
/-- C6 counterexample: content that fails UTF-8 decoding but decodes
under the latin-1 fallback is used as the current content, so the
output is not the block appended to empty content as the claim
requires for decode failures. -/
theorem update_decode_fallback_cex :
    update_readme_io sampleSummary (ReadOutcome.utf8FailLatin1 ['x'])
      ≠ '\n' :: '\n' :: mkBlock (generate_summary_text sampleSummary).data := by decide

/-- C6 (amended): a missing file, a read error, or content failing both
the UTF-8 and the latin-1 fallback decodings degrades to empty content,
and the written output is the marker-wrapped summary appended to empty
content; content recovered by the latin-1 fallback is instead used
as-is. -/
theorem update_read_failure_empty (s : Summary) (r : ReadOutcome)
    (h : r = ReadOutcome.missing ∨ r = ReadOutcome.utf8FailBothFail
      ∨ r = ReadOutcome.readError) :
    update_readme_io s r = '\n' :: '\n' :: mkBlock (generate_summary_text s).data := by
  have hr : readDocument r = [] := by
    rcases h with h | h | h <;> subst h <;> rfl
  unfold update_readme_io update_readme
  rw [hr]
  unfold patchContent
  rw [if_neg (by decide)]
  rfl

/-- Witness for C6 (amended) at a missing file. -/
theorem update_read_failure_empty_witness :
    (ReadOutcome.missing = ReadOutcome.missing
        ∨ ReadOutcome.missing = ReadOutcome.utf8FailBothFail
        ∨ ReadOutcome.missing = ReadOutcome.readError)
      ∧ update_readme_io sampleSummary ReadOutcome.missing
          = '\n' :: '\n' :: mkBlock (generate_summary_text sampleSummary).data :=
  ⟨Or.inl rfl, update_read_failure_empty sampleSummary ReadOutcome.missing (Or.inl rfl)⟩

/-- C7: when the document holds no complete marker span, the output is
the original content, two newlines, and exactly one block of
start marker, newline, rendered summary, newline, end marker. -/
theorem update_no_markers_append (s : Summary) (content : List Char)
    (h : hasMatch content = false) :
    update_readme s content
      = content ++ '\n' :: '\n'
          :: (startMarker ++ '\n' :: ((generate_summary_text s).data ++ '\n' :: endMarker)) := by
  unfold update_readme patchContent
  rw [if_neg (by simp [h])]
  rfl

/-- Witness for C7 at a two-byte marker-free document. -/
theorem update_no_markers_append_witness :
    hasMatch ['h', 'i'] = false
      ∧ update_readme sampleSummary ['h', 'i']
          = ['h', 'i'] ++ '\n' :: '\n'
              :: (startMarker ++ '\n'
                :: ((generate_summary_text sampleSummary).data ++ '\n' :: endMarker)) :=
  ⟨by decide, update_no_markers_append sampleSummary ['h', 'i'] (by decide)⟩

/-- C8: the rendered summary is, joined by newlines in this fixed
order: the total-events line, the unique-repos line, the Repositories
heading, then the bullet section — one bullet per repository name in
lexicographically ascending order (a sorted permutation of the
repository set), or the single placeholder bullet
"- No repositories found" when the set is empty. -/
theorem generate_summary_layout (s : Summary) :
    generate_summary_text s
        = "**Total public events this year:** " ++ toString s.total_events ++ "\n"
          ++ ("**Repositories contributed to:** " ++ toString s.unique_repos) ++ "\n"
          ++ "## Repositories:" ++ "\n"
          ++ (if s.repos = [] then "- No repositories found"
              else joinLines ((sortRepos s.repos).map (fun r => "- " ++ r)))
      ∧ List.Sorted (· ≤ ·) (sortRepos s.repos)
      ∧ List.Perm (sortRepos s.repos) s.repos := by
  refine ⟨?_, List.sorted_insertionSort _ _, List.perm_insertionSort _ _⟩
  by_cases h : s.repos = []
  · rw [if_pos h]
    unfold generate_summary_text
    rw [h]
    simp only [List.isEmpty_nil, if_true, List.cons_append, List.nil_append,
      joinLines_cons_cons, joinLines_singleton, String.append_assoc]
  · rw [if_neg h]
    unfold generate_summary_text
    have hempty : s.repos.isEmpty = false := by
      cases hr : s.repos
      · exact absurd hr h
      · rfl
    simp only [hempty, Bool.false_eq_true, if_false]
    cases hmap : (sortRepos s.repos).map (fun r => "- " ++ r) with
    | nil =>
      rw [List.map_eq_nil_iff] at hmap
      exact absurd hmap (sortRepos_ne_nil h)
    | cons x xs =>
      simp only [List.cons_append, List.nil_append, joinLines_cons_cons,
        String.append_assoc]

/-- C9: a failed page request (any non-2xx status) makes the fetcher
return the empty event sequence, regardless of the nonempty
current-year pages already processed before it. -/
theorem fetch_request_failure_empty (y : Nat) (front : List (List Event))
    (rest : List PageResp)
    (hfront : ∀ d ∈ front, d ≠ [] ∧ anyOlder y d = some false) :
    fetch_yearly_events y (front.map PageResp.ok ++ PageResp.err :: rest) = [] :=
  fetchGo_err rest front [] 0 hfront

/-- Witness for C9: one successfully processed current-year page, then
a failed request. -/
theorem fetch_request_failure_empty_witness :
    (∀ d ∈ [pageCurrent], d ≠ [] ∧ anyOlder 2024 d = some false)
      ∧ fetch_yearly_events 2024
          ([pageCurrent].map PageResp.ok ++ PageResp.err :: []) = [] :=
  ⟨by decide, fetch_request_failure_empty 2024 [pageCurrent] [] (by decide)⟩

/-- C10: a document holding the start marker but no end marker after
it has no complete span, so nothing is replaced: the output is the
original content — the stray start marker preserved unchanged —
followed by two newlines and a fresh marker-wrapped block.  The
no-complete-span condition is taken as the regex-level fact the claim
derives: the marker pattern has no match. -/
theorem update_stray_start_append (s : Summary) (content : List Char)
    (_h1 : occursIn startMarker content = true)
    (h2 : hasMatch content = false) :
    update_readme s content
      = content ++ '\n' :: '\n' :: mkBlock (generate_summary_text s).data := by
  unfold update_readme patchContent
  rw [if_neg (by simp [h2])]

/-- Witness for C10 at a document that is a start marker and one byte. -/
theorem update_stray_start_append_witness :
    occursIn startMarker (startMarker ++ ['x']) = true
      ∧ hasMatch (startMarker ++ ['x']) = false
      ∧ update_readme sampleSummary (startMarker ++ ['x'])
          = (startMarker ++ ['x']) ++ '\n' :: '\n'
              :: mkBlock (generate_summary_text sampleSummary).data :=
  ⟨by decide, by decide,
    update_stray_start_append sampleSummary (startMarker ++ ['x']) (by decide) (by decide)⟩

end Ghs
